import Mathlib

/-!
Shallow embedding of the streaming event-extraction filter of
`awx/main/utils/common.py` (`OutputEventFilter` and `OutputVerboseFilter`)
together with proofs that settle the frozen claims about it.

Modelling conventions:
* Text is `List Char` (`Str`).  The source works on Python `str`; `smart_str`
  is the identity on `str` input and is not modelled separately.
* Python dicts appearing here (decoded JSON objects and emitted events) are
  ordered association lists (`PyDict`); `dictSet` mirrors Python item
  assignment (update in place, else append) and `dictGet` mirrors lookup.
* The event callback is modelled by returning the list of event snapshots in
  emission order; each emitted record also carries the raw buffered fragment
  it was built from (field `chunk`) as specification-only ghost data.
* The only uncaught exception reachable in the modelled code is the
  `AttributeError` raised by `next_event_data.get('uuid', None)` when a marker
  payload decodes to a JSON value that is not an object (the `except` clause of
  `write` catches only `ValueError`).  Fallible operations therefore return
  `Except PyErr`.  A raised exception aborts the call; events delivered to the
  callback before the raise are not tracked in the error case.
* `base64.b64decode` and `json.loads` are library calls; they are modelled
  executably (`b64decode`, `jsonLoads`) with these documented restrictions:
  the base64 model handles inputs over the alphabet `[A-Za-z0-9+/=]` (the only
  characters the marker pattern can capture) with standard padding arithmetic;
  the JSON model parses objects, arrays, strings with the single-character
  escapes, integers, `true`, `false`, `null`, and rejects floats and `\u`
  escapes.  The Python regex classes `[A-Za-z0-9+/=]` and `\d` are modelled
  over their ASCII meaning (the wire format of the markers is ASCII).
  No claim in scope depends on the unmodelled corners.
-/

namespace AwxStream

abbrev Str := List Char

/-- The escape character `\x1b` that starts both control tokens. -/
def escChar : Char := '\x1b'

/-- The two-byte control token `\x1b[K` (as characters: ESC, `[`, `K`) that
opens and closes an encoded marker block. -/
def openTok : Str := [escChar, '[', 'K']

/-- Character class `[A-Za-z0-9+/=]` of the marker payload in
`EVENT_DATA_RE`. -/
def isPayloadChar (c : Char) : Bool :=
  c.isAlpha || c.isDigit || c = '+' || c = '/' || c = '='

/-- Number of `\n` characters in a string (Python `str.count('\n')`). -/
def nlCount (s : Str) : Nat := s.count '\n'

/-- Python slice `s[:-2] if len(s) > 2 else ""` used on every emitted stdout
fragment. -/
def pyDropLast2 (s : Str) : Str :=
  if s.length > 2 then s.take (s.length - 2) else []

/-- Line-break characters recognised by Python `str.splitlines`. -/
def isLineBreak (c : Char) : Bool :=
  c = '\n' || c = '\r' || c = '\x0b' || c = '\x0c' ||
  c = '\x1c' || c = '\x1d' || c = '\x1e' || c = '\u0085' ||
  c.toNat = 8232 || c.toNat = 8233

/-- Worker for `pySplitlines`; `acc` is the reversed current fragment.  A
`\r` immediately followed by `\n` ends a fragment with the combined `\r\n`
terminator, any other line-break character ends it alone, and other
characters accumulate. -/
def splitlinesAux : Str → Str → List Str
  | [], acc => if acc.isEmpty then [] else [acc.reverse]
  | c :: rest, acc =>
    if c = '\r' then
      match rest with
      | c2 :: rest2 =>
        if c2 = '\n' then (acc.reverse ++ ['\r', '\n']) :: splitlinesAux rest2 []
        else (acc.reverse ++ ['\r']) :: splitlinesAux (c2 :: rest2) []
      | [] => (acc.reverse ++ ['\r']) :: splitlinesAux [] []
    else if isLineBreak c then
      (acc.reverse ++ [c]) :: splitlinesAux rest []
    else splitlinesAux rest (c :: acc)

/-- Python `str.splitlines(True)`: split into fragments keeping the line
terminators attached; a trailing fragment without terminator is kept. -/
def pySplitlines (s : Str) : List Str := splitlinesAux s []

/-- JSON values, as produced by `json.loads` (numbers restricted to
integers, see the module comment). -/
inductive JVal where
  | null : JVal
  | bool : Bool → JVal
  | num : Int → JVal
  | str : Str → JVal
  | arr : List JVal → JVal
  | obj : List (Str × JVal) → JVal

/-- Ordered Python dict: decoded JSON objects and emitted event records. -/
abbrev PyDict := List (Str × JVal)

/-- Python dict lookup (`d.get(k, None)` / `k in d`). -/
def dictGet : PyDict → Str → Option JVal
  | [], _ => none
  | (k', v) :: rest, k => if k' = k then some v else dictGet rest k

/-- Python dict item assignment `d[k] = v`: replace in place, keeping the
original key position, else append. -/
def dictSet : PyDict → Str → JVal → PyDict
  | [], k, v => [(k, v)]
  | (k', v') :: rest, k, v =>
    if k' = k then (k, v) :: rest else (k', v') :: dictSet rest k v

/-- Python truthiness of a JSON value (`bool(v)`). -/
def pyTruthy : JVal → Bool
  | JVal.null => false
  | JVal.bool b => b
  | JVal.num n => n ≠ 0
  | JVal.str s => ¬ s.isEmpty
  | JVal.arr xs => ¬ xs.isEmpty
  | JVal.obj fs => ¬ fs.isEmpty

/-- Value of one base64 alphabet character. -/
def b64CharVal (c : Char) : Option Nat :=
  if 'A' ≤ c ∧ c ≤ 'Z' then some (c.toNat - 65)
  else if 'a' ≤ c ∧ c ≤ 'z' then some (c.toNat - 97 + 26)
  else if '0' ≤ c ∧ c ≤ '9' then some (c.toNat - 48 + 52)
  else if c = '+' then some 62
  else if c = '/' then some 63
  else none

/-- Decode a stream of 6-bit values into bytes; a single leftover value is a
padding error (`binascii.Error`, a `ValueError`). -/
def b64Quanta : List Nat → Option (List Nat)
  | [] => some []
  | [_] => none
  | [a, b] => some [(a % 64) * 4 + b / 16]
  | [a, b, c] => some [(a % 64) * 4 + b / 16, (b % 16) * 16 + c / 4]
  | a :: b :: c :: d :: rest =>
    match b64Quanta rest with
    | some bs =>
      some (((a % 64) * 4 + b / 16) :: ((b % 16) * 16 + c / 4) :: ((c % 4) * 64 + d % 64) :: bs)
    | none => none

/-- Model of `base64.b64decode` on strings over the marker payload alphabet:
alphabet characters are data, `=` only pads, and the total of data and padding
characters must be a multiple of four, else the call raises. -/
def b64decode (cs : Str) : Option (List Nat) :=
  let vals := cs.filterMap b64CharVal
  let pads := cs.count '='
  if (vals.length + pads) % 4 = 0 then b64Quanta vals else none

/-- JSON whitespace. -/
def jsonWs (c : Char) : Bool := c = ' ' || c = '\t' || c = '\n' || c = '\r'

def skipWs (cs : Str) : Str := cs.dropWhile jsonWs

/-- Single-character JSON string escapes. -/
def escCharJson (c : Char) : Option Char :=
  if c = '"' then some '"'
  else if c = '\\' then some '\\'
  else if c = '/' then some '/'
  else if c = 'b' then some '\x08'
  else if c = 'f' then some '\x0c'
  else if c = 'n' then some '\n'
  else if c = 'r' then some '\r'
  else if c = 't' then some '\t'
  else none

/-- Parse the remainder of a JSON string literal after the opening quote. -/
def parseStrChars : Str → Option (Str × Str)
  | [] => none
  | '"' :: r => some ([], r)
  | '\\' :: e :: r =>
    match escCharJson e with
    | some c =>
      match parseStrChars r with
      | some (s, r2) => some (c :: s, r2)
      | none => none
    | none => none
  | c :: r =>
    if c.toNat ≥ 32 then
      match parseStrChars r with
      | some (s, r2) => some (c :: s, r2)
      | none => none
    else none

def digitsToNat (ds : Str) : Nat :=
  ds.foldl (fun acc c => 10 * acc + (c.toNat - 48)) 0

/-- Parse a run of decimal digits as an integer; reject a following `.`, `e`
or `E` (floats are outside the model). -/
def parseNatJson (cs : Str) : Option (Nat × Str) :=
  let ds := cs.takeWhile Char.isDigit
  let rest := cs.dropWhile Char.isDigit
  if ds.isEmpty then none
  else
    match rest with
    | '.' :: _ => none
    | 'e' :: _ => none
    | 'E' :: _ => none
    | _ => some (digitsToNat ds, rest)

mutual

/-- Fuel-indexed JSON value parser (model of `json.loads`). -/
def parseJ : Nat → Str → Option (JVal × Str)
  | 0, _ => none
  | f + 1, cs0 =>
    match skipWs cs0 with
    | 'n' :: 'u' :: 'l' :: 'l' :: r => some (JVal.null, r)
    | 't' :: 'r' :: 'u' :: 'e' :: r => some (JVal.bool true, r)
    | 'f' :: 'a' :: 'l' :: 's' :: 'e' :: r => some (JVal.bool false, r)
    | '"' :: r =>
      match parseStrChars r with
      | some (s, r2) => some (JVal.str s, r2)
      | none => none
    | '[' :: r =>
      (match skipWs r with
       | ']' :: r2 => some (JVal.arr [], r2)
       | _ =>
         match parseArrItems f r with
         | some (xs, r2) => some (JVal.arr xs, r2)
         | none => none)
    | '\x7b' :: r =>
      (match skipWs r with
       | '\x7d' :: r2 => some (JVal.obj [], r2)
       | _ =>
         match parseObjItems f r with
         | some (fs, r2) => some (JVal.obj fs, r2)
         | none => none)
    | '-' :: r =>
      (match parseNatJson r with
       | some (n, r2) => some (JVal.num (-(n : Int)), r2)
       | none => none)
    | c :: r =>
      if c.isDigit then
        match parseNatJson (c :: r) with
        | some (n, r2) => some (JVal.num (n : Int), r2)
        | none => none
      else none
    | [] => none

/-- Comma-separated JSON array items up to the closing bracket. -/
def parseArrItems : Nat → Str → Option (List JVal × Str)
  | 0, _ => none
  | f + 1, cs =>
    match parseJ f cs with
    | some (v, r) =>
      (match skipWs r with
       | ',' :: r2 =>
         (match parseArrItems f r2 with
          | some (xs, r3) => some (v :: xs, r3)
          | none => none)
       | ']' :: r2 => some ([v], r2)
       | _ => none)
    | none => none

/-- Comma-separated JSON object members up to the closing brace; duplicate
keys overwrite in place like Python dict assignment. -/
def parseObjItems : Nat → Str → Option (PyDict × Str)
  | 0, _ => none
  | f + 1, cs =>
    match skipWs cs with
    | '"' :: r =>
      (match parseStrChars r with
       | some (k, r2) =>
         (match skipWs r2 with
          | ':' :: r3 =>
            (match parseJ f r3 with
             | some (v, r4) =>
               (match skipWs r4 with
                | ',' :: r5 =>
                  (match parseObjItems f r5 with
                   | some (fs, r6) => some (dictSet fs k v, r6)
                   | none => none)
                | '\x7d' :: r5 => some ([(k, v)], r5)
                | _ => none)
             | none => none)
          | _ => none)
       | none => none)
    | _ => none

end

/-- Model of `json.loads` on a byte string: the bytes of interest are ASCII
and are read as characters; the whole input must be one JSON value. -/
def jsonLoads (bs : List Nat) : Option JVal :=
  let cs : Str := bs.map Char.ofNat
  match parseJ (cs.length + 1) cs with
  | some (v, rest) => if (skipWs rest).isEmpty then some v else none
  | none => none

/-- Fuel-indexed worker for `stripMoves`; every recursive call shortens the
list, so fuel equal to the length always suffices. -/
def stripMovesF : Nat → Str → Str
  | 0, cs => cs
  | _ + 1, [] => []
  | f + 1, '\x1b' :: '[' :: rest =>
    (match rest.dropWhile Char.isDigit with
     | 'D' :: rest2 =>
       if (rest.takeWhile Char.isDigit).isEmpty then '\x1b' :: stripMovesF f ('[' :: rest)
       else stripMovesF f rest2
     | _ => '\x1b' :: stripMovesF f ('[' :: rest))
  | f + 1, c :: cs => c :: stripMovesF f cs

/-- Model of `re.sub(r'\x1b\[\d+D', '', s)`: delete every cursor-move token,
scanning left to right without overlap. -/
def stripMoves (cs : Str) : Str := stripMovesF cs.length cs

/-- One `PAYLOAD MOVE` repetition of the marker body: a maximal nonempty run
of payload characters, then `ESC [ digits+ D`.  Backtracking cannot produce a
different split here, so the maximal-munch reading coincides with the Python
regex engine on `(?:[A-Za-z0-9+/=]+\x1b\[\d+D)`. -/
def matchItem (cs : Str) : Option Str :=
  if (cs.takeWhile isPayloadChar).isEmpty then none
  else
    match cs.dropWhile isPayloadChar with
    | '\x1b' :: '[' :: r =>
      if (r.takeWhile Char.isDigit).isEmpty then none
      else
        match r.dropWhile Char.isDigit with
        | 'D' :: r2 => some r2
        | _ => none
    | _ => none

/-- After at least one repetition: greedily take further repetitions while a
payload character is next, else require the closing `ESC [ K`.  (A payload
character cannot start the closing token, and once a further repetition is
attempted a failure cannot backtrack into success, so this is exactly the
greedy regex engine's behaviour.)  Returns the remainder after the closing
token. -/
def matchRest : Nat → Str → Option Str
  | 0, _ => none
  | f + 1, cs =>
    match cs with
    | [] => none
    | c :: tl =>
      if isPayloadChar c then
        match matchItem (c :: tl) with
        | some r => matchRest f r
        | none => none
      else
        match c :: tl with
        | '\x1b' :: '[' :: 'K' :: r => some r
        | _ => none

/-- Try `EVENT_DATA_RE` anchored at the head of `cs`.  On success, returns the
matched length and the capture of group 1 (the whole `(PAYLOAD MOVE)+` body).
The fuel `after.length` always suffices because every repetition consumes at
least five characters. -/
def tryMatchHere (cs : Str) : Option (Nat × Str) :=
  match cs with
  | '\x1b' :: '[' :: 'K' :: after =>
    (match matchItem after with
     | some r1 =>
       (match matchRest after.length r1 with
        | some rest =>
          let g := after.take (after.length - rest.length - 3)
          some (g.length + 6, g)
        | none => none)
     | none => none)
  | _ => none

/-- Model of `EVENT_DATA_RE.search`: leftmost match; returns the match start,
the match end, and the group-1 capture. -/
def reSearch : Str → Option (Nat × Nat × Str)
  | [] => none
  | c :: tl =>
    match tryMatchHere (c :: tl) with
    | some (n, g) => some (0, n, g)
    | none =>
      match reSearch tl with
      | some (s, e, g) => some (s + 1, e + 1, g)
      | none => none

/-- The decode pipeline of `write`: strip the cursor moves, base64-decode,
JSON-decode; `none` is the `ValueError` case. -/
def decodePayload (g : Str) : Option JVal :=
  match b64decode (stripMoves g) with
  | some bs => jsonLoads bs
  | none => none

/-- `event_data` as computed in `write`: a decode failure degrades to the
empty record (the `except ValueError` branch). -/
def decodeEventData (g : Str) : JVal :=
  match decodePayload g with
  | some v => v
  | none => JVal.obj []

/-- The `'\x1b[K' in window` pre-check of `write`. -/
def hasOpenTok : Str → Bool
  | '\x1b' :: '[' :: 'K' :: _ => true
  | _ :: tl => hasOpenTok tl
  | [] => false

/-- The uncaught exception reachable in the modelled code. -/
inductive PyErr where
  | attributeError : PyErr
deriving DecidableEq

/-- Mutable state of one `OutputEventFilter` instance. -/
structure FState where
  counter : Nat
  startLine : Nat
  buffer : Str
  lastChunk : Str
  current : Option PyDict

/-- `OutputEventFilter.__init__`. -/
def initState : FState :=
  { counter := 0, startLine := 0, buffer := [], lastChunk := [], current := none }

/-- One emitted event: the snapshot handed to the callback, together with the
raw buffered fragment it was built from (ghost data for the line-count
claims). -/
structure Emit where
  chunk : Str
  event : PyDict

def eventKey : Str := "event".toList
def counterKey : Str := "counter".toList
def stdoutKey : Str := "stdout".toList
def startLineKey : Str := "start_line".toList
def endLineKey : Str := "end_line".toList
def finalCounterKey : Str := "final_counter".toList
def uuidKey : Str := "uuid".toList
def verboseStr : Str := "verbose".toList
def eofStr : Str := "EOF".toList

/-- The event dict after the four assignments of one `_emit_event` loop
iteration. -/
def evDict (d : PyDict) (c l : Nat) (ch : Str) : PyDict :=
  dictSet (dictSet (dictSet (dictSet d counterKey (JVal.num ((c + 1 : Nat) : Int)))
    stdoutKey (JVal.str (pyDropLast2 ch)))
    startLineKey (JVal.num ((l : Nat) : Int)))
    endLineKey (JVal.num ((l + nlCount ch : Nat) : Int))

/-- The per-fragment loop of `_emit_event`: thread the event dict, counter and
line cursor through the fragments, snapshotting the dict after each group of
assignments. -/
def emitChunks : PyDict → Nat → Nat → List Str → PyDict × Nat × Nat × List Emit
  | d, c, l, [] => (d, c, l, [])
  | d, c, l, ch :: rest =>
    let d' := evDict d c l ch
    let out := emitChunks d' (c + 1) (l + nlCount ch) rest
    (out.1, out.2.1, out.2.2.1, { chunk := ch, event := d' } :: out.2.2.2)

/-- Python truthiness of `self._current_event_data` (`None` and the empty
dict are falsy). -/
def currentTruthy (cur : Option PyDict) : Bool :=
  match cur with
  | some d => ¬ d.isEmpty
  | none => false

/-- `next_event_data or {}`. -/
def normRecord (next : Option JVal) : JVal :=
  match next with
  | none => JVal.obj []
  | some v => if pyTruthy v then v else JVal.obj []

/-- The branch of `_emit_event` choosing the base event dict and the stdout
fragments: pending-record branch, verbose branch, or nothing. -/
def emitPair (st : FState) (buffered : Str) : PyDict × List Str :=
  if currentTruthy st.current then
    (st.current.getD [], [buffered])
  else if ¬ buffered.isEmpty then
    ([(eventKey, JVal.str verboseStr)], pySplitlines buffered)
  else
    ([], [])

/-- The full emission loop of `_emit_event` on the chosen fragments. -/
def emitOut (st : FState) (buffered : Str) : PyDict × Nat × Nat × List Emit :=
  emitChunks (emitPair st buffered).1 st.counter st.startLine (emitPair st buffered).2

/-- Truthiness of `next_event_data.get('uuid', None)` for a dict record. -/
def uuidTruthy (fs : PyDict) : Bool :=
  match dictGet fs uuidKey with
  | some v => pyTruthy v
  | none => false

/-- `OutputEventFilter._emit_event(buffered_stdout, next_event_data)`.  The
callback is modelled by the returned snapshot list; the final
`next_event_data.get('uuid', None)` raises `AttributeError` when the record is
not a dict (in that case the events already delivered before the raise are
dropped from the model, which only serves the error-existence claims). -/
def emitEvent (st : FState) (buffered : Str) (next : Option JVal) :
    Except PyErr (FState × List Emit) :=
  match normRecord next with
  | JVal.obj fs =>
    Except.ok ({ st with
        counter := (emitOut st buffered).2.1
        startLine := (emitOut st buffered).2.2.1
        current := if uuidTruthy fs then some fs else none },
      (emitOut st buffered).2.2.2)
  | _ => Except.error PyErr.attributeError

/-- The `while should_search` loop of `write`, fuel-indexed.  Each found match
consumes at least six characters of the buffer, so the fuel `length + 1`
passed by `write` can never run out. -/
def scanLoopF : Nat → FState → Except PyErr (FState × List Emit)
  | 0, st => Except.ok (st, [])
  | f + 1, st =>
    match reSearch st.buffer with
    | none => Except.ok (st, [])
    | some (s, e, g) =>
      match emitEvent st (st.buffer.take s) (some (decodeEventData g)) with
      | Except.error err => Except.error err
      | Except.ok (st1, evs) =>
        let rem := st.buffer.drop e
        match scanLoopF f { st1 with buffer := rem, lastChunk := rem } with
        | Except.error err => Except.error err
        | Except.ok (st2, evs2) => Except.ok (st2, evs ++ evs2)

/-- `OutputEventFilter.write(data)`. -/
def write (st : FState) (data : Str) : Except PyErr (FState × List Emit) :=
  let shouldSearch := hasOpenTok (st.lastChunk ++ data)
  let st1 := { st with buffer := st.buffer ++ data, lastChunk := data }
  if shouldSearch then scanLoopF (st1.buffer.length + 1) st1
  else Except.ok (st1, [])

/-- The sentinel record `dict(event='EOF', final_counter=self._counter)`. -/
def sentinelDict (c : Nat) : PyDict :=
  [(eventKey, JVal.str eofStr), (finalCounterKey, JVal.num (c : Int))]

/-- `OutputEventFilter.close()`: flush a nonempty buffer through
`_emit_event`, then emit the sentinel.  Returns the final state, the flushed
event snapshots, and the sentinel record. -/
def close (st : FState) : Except PyErr (FState × List Emit × PyDict) :=
  if ¬ st.buffer.isEmpty then
    match emitEvent st st.buffer none with
    | Except.error err => Except.error err
    | Except.ok (st1, evs) =>
      Except.ok ({ st1 with buffer := [] }, evs, sentinelDict st1.counter)
  else
    Except.ok (st, [], sentinelDict st.counter)

/-- Feed a list of chunks through `write`. -/
def runWrites : FState → List Str → Except PyErr (FState × List Emit)
  | st, [] => Except.ok (st, [])
  | st, d :: ds =>
    match write st d with
    | Except.error err => Except.error err
    | Except.ok (st1, evs) =>
      match runWrites st1 ds with
      | Except.error err => Except.error err
      | Except.ok (st2, evs2) => Except.ok (st2, evs ++ evs2)

/-- Feed the chunks through a fresh filter and close: the non-sentinel trace
(with ghost fragments) and the sentinel record. -/
def runTrace (ops : List Str) : Except PyErr (List Emit × PyDict) :=
  match runWrites initState ops with
  | Except.error err => Except.error err
  | Except.ok (st1, evs) =>
    match close st1 with
    | Except.error err => Except.error err
    | Except.ok (_, evs2, snt) => Except.ok (evs ++ evs2, snt)

/-- The full sequence of records the sink callback receives. -/
def runEvents (ops : List Str) : Except PyErr (List PyDict) :=
  match runTrace ops with
  | Except.error err => Except.error err
  | Except.ok (tr, snt) => Except.ok (tr.map Emit.event ++ [snt])

/-- Final filter state after feeding the chunks and closing. -/
def runFinalState (ops : List Str) : Except PyErr FState :=
  match runWrites initState ops with
  | Except.error err => Except.error err
  | Except.ok (st1, _) =>
    match close st1 with
    | Except.error err => Except.error err
    | Except.ok (st2, _, _) => Except.ok st2

/-- Emit one verbose event per complete line (`OutputVerboseFilter.write`'s
per-line loop over `_emit_event`). -/
def emitLines : FState → List Str → Except PyErr (FState × List Emit)
  | st, [] => Except.ok (st, [])
  | st, l :: ls =>
    match emitEvent st l none with
    | Except.error err => Except.error err
    | Except.ok (st1, evs) =>
      match emitLines st1 ls with
      | Except.error err => Except.error err
      | Except.ok (st2, evs2) => Except.ok (st2, evs ++ evs2)

/-- `OutputVerboseFilter.write(data)`: append to the buffer; when the chunk
contains `'\n'`, split the whole buffer with `splitlines(True)`, withhold the
last fragment when it has no `'\n'`, and emit the rest.  (`lines[-1]` in the
source cannot hit an empty list: the chunk contains `'\n'`, so the buffer is
nonempty and so is its `splitlines`.) -/
def vWrite (st : FState) (data : Str) : Except PyErr (FState × List Emit) :=
  let st1 := { st with buffer := st.buffer ++ data }
  if ¬ data.isEmpty ∧ '\n' ∈ data then
    let lines := pySplitlines st1.buffer
    let withhold := '\n' ∉ lines.getLastD []
    let toEmit := if withhold then lines.dropLast else lines
    let rem := if withhold then lines.getLastD [] else []
    match emitLines st1 toEmit with
    | Except.error err => Except.error err
    | Except.ok (st2, evs) => Except.ok ({ st2 with buffer := rem }, evs)
  else
    Except.ok (st1, [])

/-- Convenience for concrete inputs. -/
def strL (s : String) : Str := s.toList

/-- The `stdout` field of an emitted record, as a string. -/
def stdoutOf (d : PyDict) : Str :=
  match dictGet d stdoutKey with
  | some (JVal.str s) => s
  | _ => []

/-- A numeric field of an emitted record (0 when absent or non-numeric). -/
def intField (d : PyDict) (k : Str) : Int :=
  match dictGet d k with
  | some (JVal.num n) => n
  | _ => 0

theorem dictGet_dictSet_same (d : PyDict) (k : Str) (v : JVal) :
    dictGet (dictSet d k v) k = some v := by
  induction d with
  | nil => simp [dictSet, dictGet]
  | cons kv rest ih =>
    obtain ⟨k', v'⟩ := kv
    by_cases h : k' = k
    · simp [dictSet, dictGet, h]
    · simp [dictSet, dictGet, h, ih]

theorem dictGet_dictSet_diff (d : PyDict) (k k2 : Str) (v : JVal) (h : k ≠ k2) :
    dictGet (dictSet d k v) k2 = dictGet d k2 := by
  induction d with
  | nil => simp [dictSet, dictGet, h]
  | cons kv rest ih =>
    obtain ⟨k', v'⟩ := kv
    by_cases h2 : k' = k
    · subst h2
      simp [dictSet, dictGet, h]
    · by_cases h3 : k' = k2
      · subst h3
        simp [dictSet, dictGet, h2, Ne.symm h]
      · simp [dictSet, dictGet, h2, h3, ih]

theorem evDict_counter (d : PyDict) (c l : Nat) (ch : Str) :
    dictGet (evDict d c l ch) counterKey = some (JVal.num ((c + 1 : Nat) : Int)) := by
  simp only [evDict]
  rw [dictGet_dictSet_diff _ _ _ _ (by decide),
    dictGet_dictSet_diff _ _ _ _ (by decide),
    dictGet_dictSet_diff _ _ _ _ (by decide),
    dictGet_dictSet_same]

theorem evDict_stdout (d : PyDict) (c l : Nat) (ch : Str) :
    dictGet (evDict d c l ch) stdoutKey = some (JVal.str (pyDropLast2 ch)) := by
  simp only [evDict]
  rw [dictGet_dictSet_diff _ _ _ _ (by decide),
    dictGet_dictSet_diff _ _ _ _ (by decide),
    dictGet_dictSet_same]

theorem evDict_startLine (d : PyDict) (c l : Nat) (ch : Str) :
    dictGet (evDict d c l ch) startLineKey = some (JVal.num ((l : Nat) : Int)) := by
  simp only [evDict]
  rw [dictGet_dictSet_diff _ _ _ _ (by decide), dictGet_dictSet_same]

theorem evDict_endLine (d : PyDict) (c l : Nat) (ch : Str) :
    dictGet (evDict d c l ch) endLineKey =
      some (JVal.num ((l + nlCount ch : Nat) : Int)) := by
  simp only [evDict]
  rw [dictGet_dictSet_same]

/-- Trace invariant: starting from counter `c` and line cursor `l`, the
emitted records carry the contiguous counters `c+1, c+2, ...` and chained
line ranges, ending at counter `c'` and cursor `l'`. -/
inductive Trace : Nat → Nat → List Emit → Nat → Nat → Prop where
  | nil : ∀ c l, Trace c l [] c l
  | cons : ∀ c l r tr c' l',
      dictGet r.event counterKey = some (JVal.num ((c + 1 : Nat) : Int)) →
      dictGet r.event startLineKey = some (JVal.num ((l : Nat) : Int)) →
      dictGet r.event endLineKey = some (JVal.num ((l + nlCount r.chunk : Nat) : Int)) →
      dictGet r.event stdoutKey = some (JVal.str (pyDropLast2 r.chunk)) →
      Trace (c + 1) (l + nlCount r.chunk) tr c' l' →
      Trace c l (r :: tr) c' l'

theorem Trace.append_trace {c l t1 c1 l1 t2 c2 l2 : _} (h1 : Trace c l t1 c1 l1)
    (h2 : Trace c1 l1 t2 c2 l2) : Trace c l (t1 ++ t2) c2 l2 := by
  induction h1 with
  | nil => simpa using h2
  | cons c l r tr c' l' hc hs he hst _ ih =>
    exact Trace.cons c l r _ c2 l2 hc hs he hst (ih h2)

theorem Trace.counter_eq {c l tr c' l' : _} (h : Trace c l tr c' l') :
    c' = c + tr.length := by
  induction h with
  | nil => simp
  | cons c l r tr c' l' _ _ _ _ _ ih => simp [ih]; omega

theorem emitChunks_trace (chunks : List Str) : ∀ d c l,
    Trace c l (emitChunks d c l chunks).2.2.2 (emitChunks d c l chunks).2.1
      (emitChunks d c l chunks).2.2.1 := by
  induction chunks with
  | nil => intro d c l; exact Trace.nil c l
  | cons ch rest ih =>
    intro d c l
    refine Trace.cons c l _ _ _ _ ?_ ?_ ?_ ?_ (ih (evDict d c l ch) (c + 1) (l + nlCount ch))
    · exact evDict_counter d c l ch
    · exact evDict_startLine d c l ch
    · exact evDict_endLine d c l ch
    · exact evDict_stdout d c l ch

/-- Inversion for a successful `_emit_event` call. -/
theorem emitEvent_ok {st : FState} {b : Str} {next : Option JVal} {st' : FState}
    {tr : List Emit} (h : emitEvent st b next = Except.ok (st', tr)) :
    ∃ fs, normRecord next = JVal.obj fs ∧
      st' = { st with
              counter := (emitOut st b).2.1
              startLine := (emitOut st b).2.2.1
              current := if uuidTruthy fs then some fs else none } ∧
      tr = (emitOut st b).2.2.2 := by
  unfold emitEvent at h
  rcases hnd : normRecord next with _ | _ | _ | _ | _ | fs <;> rw [hnd] at h
  · exact absurd h (by simp)
  · exact absurd h (by simp)
  · exact absurd h (by simp)
  · exact absurd h (by simp)
  · exact absurd h (by simp)
  · obtain ⟨h1, h2⟩ := Prod.mk.inj (Except.ok.inj h)
    exact ⟨fs, rfl, h1.symm, h2.symm⟩

theorem emitEvent_trace {st : FState} {b : Str} {next : Option JVal} {st' : FState}
    {tr : List Emit} (h : emitEvent st b next = Except.ok (st', tr)) :
    Trace st.counter st.startLine tr st'.counter st'.startLine ∧
      st'.buffer = st.buffer ∧ st'.lastChunk = st.lastChunk := by
  obtain ⟨fs, _, h1, h2⟩ := emitEvent_ok h
  subst h1
  subst h2
  exact ⟨emitChunks_trace _ _ st.counter st.startLine, rfl, rfl⟩

theorem scanLoopF_trace (f : Nat) : ∀ {st st' : FState} {tr : List Emit},
    scanLoopF f st = Except.ok (st', tr) →
    Trace st.counter st.startLine tr st'.counter st'.startLine := by
  induction f with
  | zero =>
    intro st st' tr h
    simp only [scanLoopF] at h
    obtain ⟨h1, h2⟩ := Prod.mk.inj (Except.ok.inj h)
    subst h1; subst h2
    exact Trace.nil _ _
  | succ f ih =>
    intro st st' tr h
    simp only [scanLoopF] at h
    rcases hs : reSearch st.buffer with _ | ⟨s, e, g⟩ <;> rw [hs] at h <;> dsimp only at h
    · obtain ⟨h1, h2⟩ := Prod.mk.inj (Except.ok.inj h)
      subst h1; subst h2
      exact Trace.nil _ _
    · rcases he : emitEvent st (st.buffer.take s) (some (decodeEventData g)) with err | ⟨st1, evs⟩ <;>
        rw [he] at h <;> dsimp only at h
      · exact absurd h (by simp)
      · rcases hl : (scanLoopF f { st1 with buffer := st.buffer.drop e, lastChunk := st.buffer.drop e }) with err | ⟨st2, evs2⟩ <;> rw [hl] at h <;>
          dsimp only at h
        · exact absurd h (by simp)
        · obtain ⟨h1, h2⟩ := Prod.mk.inj (Except.ok.inj h)
          subst h1; subst h2
          obtain ⟨ht1, _, _⟩ := emitEvent_trace he
          have ht2 := ih hl
          exact Trace.append_trace ht1 ht2

theorem write_trace {st : FState} {data : Str} {st' : FState} {tr : List Emit}
    (h : write st data = Except.ok (st', tr)) :
    Trace st.counter st.startLine tr st'.counter st'.startLine := by
  unfold write at h
  by_cases hss : hasOpenTok (st.lastChunk ++ data) <;> simp only [hss, if_true, if_false] at h
  · have ht := scanLoopF_trace _ h
    exact ht
  · obtain ⟨h1, h2⟩ := Prod.mk.inj (Except.ok.inj h)
    subst h1; subst h2
    exact Trace.nil _ _

theorem runWrites_trace (ops : List Str) : ∀ {st st' : FState} {tr : List Emit},
    runWrites st ops = Except.ok (st', tr) →
    Trace st.counter st.startLine tr st'.counter st'.startLine := by
  induction ops with
  | nil =>
    intro st st' tr h
    simp only [runWrites] at h
    obtain ⟨h1, h2⟩ := Prod.mk.inj (Except.ok.inj h)
    subst h1; subst h2
    exact Trace.nil _ _
  | cons d ds ih =>
    intro st st' tr h
    simp only [runWrites] at h
    rcases hw : write st d with err | ⟨st1, evs⟩ <;> rw [hw] at h <;> dsimp only at h
    · exact absurd h (by simp)
    · rcases hr : runWrites st1 ds with err | ⟨st2, evs2⟩ <;> rw [hr] at h <;> dsimp only at h
      · exact absurd h (by simp)
      · obtain ⟨h1, h2⟩ := Prod.mk.inj (Except.ok.inj h)
        subst h1; subst h2
        exact Trace.append_trace (write_trace hw) (ih hr)

theorem close_trace {st st' : FState} {tr : List Emit} {snt : PyDict}
    (h : close st = Except.ok (st', tr, snt)) :
    Trace st.counter st.startLine tr st'.counter st'.startLine ∧
      snt = sentinelDict st'.counter := by
  unfold close at h
  by_cases hb : st.buffer.isEmpty <;>
    simp only [hb, not_true, not_false_iff, if_true, if_false] at h
  · obtain ⟨h1, h2⟩ := Prod.mk.inj (Except.ok.inj h)
    obtain ⟨h3, h4⟩ := Prod.mk.inj h2
    subst h1
    exact ⟨h3 ▸ Trace.nil _ _, by rw [← h4]⟩
  · rcases he : emitEvent st st.buffer none with err | ⟨st1, evs⟩ <;> rw [he] at h <;>
      dsimp only at h
    · exact absurd h (by simp)
    · obtain ⟨h1, h2⟩ := Prod.mk.inj (Except.ok.inj h)
      obtain ⟨h3, h4⟩ := Prod.mk.inj h2
      obtain ⟨ht, _, _⟩ := emitEvent_trace he
      have hcnt : st'.counter = st1.counter := by rw [← h1]
      refine ⟨h3 ▸ (by rw [← h1]; exact ht), ?_⟩
      rw [← h4, hcnt]

theorem runTrace_trace {ops : List Str} {tr : List Emit} {snt : PyDict}
    (h : runTrace ops = Except.ok (tr, snt)) :
    ∃ cf lf, Trace 0 0 tr cf lf ∧ snt = sentinelDict cf := by
  unfold runTrace at h
  rcases hw : runWrites initState ops with err | ⟨st1, evs⟩ <;> rw [hw] at h <;> dsimp only at h
  · exact absurd h (by simp)
  · rcases hc : close st1 with err | ⟨st2, evs2, snt2⟩ <;> rw [hc] at h <;> dsimp only at h
    · exact absurd h (by simp)
    · obtain ⟨h1, h2⟩ := Prod.mk.inj (Except.ok.inj h)
      subst h1; subst h2
      obtain ⟨ht2, hsnt⟩ := close_trace hc
      have ht1 := runWrites_trace ops hw
      exact ⟨st2.counter, st2.startLine, Trace.append_trace ht1 ht2, hsnt⟩

theorem Trace.get_fields {c l : Nat} {tr : List Emit} {c' l' : Nat}
    (h : Trace c l tr c' l') :
    ∀ i (hi : i < tr.length),
      dictGet (tr.get ⟨i, hi⟩).event counterKey = some (JVal.num ((c + i + 1 : Nat) : Int)) ∧
      dictGet (tr.get ⟨i, hi⟩).event startLineKey =
        some (JVal.num ((l + ((tr.take i).map (fun r => nlCount r.chunk)).sum : Nat) : Int)) ∧
      dictGet (tr.get ⟨i, hi⟩).event endLineKey =
        some (JVal.num ((l + ((tr.take i).map (fun r => nlCount r.chunk)).sum +
          nlCount (tr.get ⟨i, hi⟩).chunk : Nat) : Int)) ∧
      dictGet (tr.get ⟨i, hi⟩).event stdoutKey =
        some (JVal.str (pyDropLast2 (tr.get ⟨i, hi⟩).chunk)) := by
  induction h with
  | nil => intro i hi; exact absurd hi (by simp)
  | cons c l r tr c' l' hc hs he hst htl ih =>
    intro i hi
    cases i with
    | zero => simpa using ⟨hc, hs, he, hst⟩
    | succ i =>
      have hi' : i < tr.length := by simpa using hi
      have hf := ih i hi'
      simp only [List.get_cons_succ, List.take_succ_cons, List.map_cons, List.sum_cons] at hf ⊢
      refine ⟨?_, ?_, ?_, hf.2.2.2⟩
      · rw [hf.1]
        norm_num
        omega
      · rw [hf.2.1]
        norm_num
        omega
      · rw [hf.2.2.1]
        norm_num
        omega

theorem take_map_sum_mono (f : Emit → Nat) : ∀ (tr : List Emit) (i j : Nat), i ≤ j →
    ((tr.take i).map f).sum ≤ ((tr.take j).map f).sum := by
  intro tr
  induction tr with
  | nil => intro i j _; simp
  | cons r tr ih =>
    intro i j hij
    cases i with
    | zero => simp
    | succ i =>
      cases j with
      | zero => omega
      | succ j =>
        simp only [List.take_succ_cons, List.map_cons, List.sum_cons]
        have := ih i j (by omega)
        omega

/-- First verbose event of `write("hello\nworld\n"); close()`. -/
def helloEv1 : PyDict :=
  [(eventKey, JVal.str verboseStr), (counterKey, JVal.num 1),
   (stdoutKey, JVal.str (strL "hell")), (startLineKey, JVal.num 0),
   (endLineKey, JVal.num 1)]

/-- Second verbose event of `write("hello\nworld\n"); close()`. -/
def helloEv2 : PyDict :=
  [(eventKey, JVal.str verboseStr), (counterKey, JVal.num 2),
   (stdoutKey, JVal.str (strL "worl")), (startLineKey, JVal.num 1),
   (endLineKey, JVal.num 2)]

def helloEmit1 : Emit := { chunk := strL "hello\n", event := helloEv1 }

def helloEmit2 : Emit := { chunk := strL "world\n", event := helloEv2 }

/-- C2: over any successful run (writes then close) of one filter instance,
the records the sink receives are some list `pre` followed by exactly one
sentinel; the counters carried by the `pre` records are exactly
`1, 2, ..., pre.length` in emission order, and the sentinel carries
`final_counter = pre.length` (0 when `pre` is empty) without incrementing the
counter. -/
theorem c2_counter_sentinel {ops : List Str} {evs : List PyDict}
    (h : runEvents ops = Except.ok evs) :
    ∃ pre : List PyDict, evs = pre ++ [sentinelDict pre.length] ∧
      ∀ i (hi : i < pre.length),
        dictGet (pre.get ⟨i, hi⟩) counterKey = some (JVal.num ((i + 1 : Nat) : Int)) := by
  unfold runEvents at h
  rcases ht : runTrace ops with err | ⟨tr, snt⟩ <;> rw [ht] at h <;> dsimp only at h
  · exact absurd h (by simp)
  · have h2 := Except.ok.inj h
    obtain ⟨cf, lf, htr, hsnt⟩ := runTrace_trace ht
    have hcf : cf = tr.length := by simpa using Trace.counter_eq htr
    refine ⟨tr.map Emit.event, ?_, ?_⟩
    · rw [← h2, hsnt, hcf]
      simp
    · intro i hi
      have hi' : i < tr.length := by simpa using hi
      have hf := (Trace.get_fields htr i hi').1
      have hm : (tr.map Emit.event).get ⟨i, hi⟩ = (tr.get ⟨i, hi'⟩).event := by
        simp [List.get_eq_getElem]
      rw [hm, hf]
      norm_num

/-- Witness for C2 at the concrete run `write("hello\nworld\n"); close()`. -/
theorem c2_counter_sentinel_witness :
    ∃ pre : List PyDict,
      ([helloEv1, helloEv2, sentinelDict 2] : List PyDict) = pre ++ [sentinelDict pre.length] ∧
      ∀ i (hi : i < pre.length),
        dictGet (pre.get ⟨i, hi⟩) counterKey = some (JVal.num ((i + 1 : Nat) : Int)) :=
  @c2_counter_sentinel [strL "hello\nworld\n"] [helloEv1, helloEv2, sentinelDict 2] rfl

/-- C3 counterexample: on `write("hello\nworld\n"); close()` the code emits
`stdout` values `"hell"` and `"worl"` (the per-fragment `[:-2]` slice applies
to the verbose branch too), not `"hello\n"` and `"world\n"` as the claim
states. -/
theorem c3_counterexample :
    (runEvents [strL "hello\nworld\n"]).map (fun l => l.map stdoutOf) =
        Except.ok [strL "hell", strL "worl", []] ∧
      strL "hell" ≠ strL "hello\n" ∧ strL "worl" ≠ strL "world\n" :=
  ⟨rfl, by decide, by decide⟩

/-- C3 amended: `write("hello\nworld\n"); close()` delivers exactly three
records: `{event: verbose, counter: 1, stdout: "hell", start_line: 0,
end_line: 1}`, `{event: verbose, counter: 2, stdout: "worl", start_line: 1,
end_line: 2}`, `{event: EOF, final_counter: 2}` — the stdout of each fragment
is the fragment with its trailing two characters dropped. -/
theorem c3_amended :
    runEvents [strL "hello\nworld\n"] =
      Except.ok [helloEv1, helloEv2, sentinelDict 2] := rfl

/-- C4 counterexample: on `write("hello\nworld\n"); close()` the first event
has `end_line - start_line = 1` but its `stdout` field (`"hell"`) contains no
newline — the line delta counts the newlines of the emitted fragment before
the `[:-2]` slice, not those of the `stdout` field. -/
theorem c4_counterexample :
    (runEvents [strL "hello\nworld\n"]).map
        (fun l => l.map (fun d =>
          (intField d endLineKey - intField d startLineKey, (nlCount (stdoutOf d) : Int)))) =
      Except.ok [(1, 0), (1, 0), (0, 0)] ∧ (1 : Int) ≠ (0 : Int) :=
  ⟨rfl, by decide⟩

/-- C4 amended: for every successful run, each emitted non-sentinel event
carries numeric `start_line`/`end_line` fields whose difference is the number
of newline characters in the buffered fragment the event was built from (its
`stdout` plus the up-to-two dropped trailing characters), and `start_line` is
non-decreasing over the emission sequence. -/
theorem c4_amended {ops : List Str} {tr : List Emit} {snt : PyDict}
    (h : runTrace ops = Except.ok (tr, snt)) :
    (∀ i (hi : i < tr.length), ∃ a b : Nat,
        dictGet (tr.get ⟨i, hi⟩).event startLineKey = some (JVal.num (a : Int)) ∧
        dictGet (tr.get ⟨i, hi⟩).event endLineKey = some (JVal.num (b : Int)) ∧
        b = a + nlCount (tr.get ⟨i, hi⟩).chunk) ∧
    (∀ i j (hi : i < tr.length) (hj : j < tr.length), i ≤ j →
        intField (tr.get ⟨i, hi⟩).event startLineKey ≤
          intField (tr.get ⟨j, hj⟩).event startLineKey) := by
  obtain ⟨cf, lf, htr, _⟩ := runTrace_trace h
  constructor
  · intro i hi
    obtain ⟨_, hs, he, _⟩ := Trace.get_fields htr i hi
    exact ⟨_, _, hs, he, by omega⟩
  · intro i j hi hj hij
    obtain ⟨_, hsi, _, _⟩ := Trace.get_fields htr i hi
    obtain ⟨_, hsj, _, _⟩ := Trace.get_fields htr j hj
    unfold intField
    rw [hsi, hsj]
    have hmono := take_map_sum_mono (fun r => nlCount r.chunk) tr i j hij
    simp only [Nat.zero_add]
    exact_mod_cast hmono

/-- Witness for the amended C4 at the run `write("hello\nworld\n"); close()`. -/
theorem c4_amended_witness :
    (∀ i (hi : i < ([helloEmit1, helloEmit2] : List Emit).length), ∃ a b : Nat,
        dictGet (([helloEmit1, helloEmit2] : List Emit).get ⟨i, hi⟩).event startLineKey =
          some (JVal.num (a : Int)) ∧
        dictGet (([helloEmit1, helloEmit2] : List Emit).get ⟨i, hi⟩).event endLineKey =
          some (JVal.num (b : Int)) ∧
        b = a + nlCount (([helloEmit1, helloEmit2] : List Emit).get ⟨i, hi⟩).chunk) ∧
    (∀ i j (hi : i < ([helloEmit1, helloEmit2] : List Emit).length)
        (hj : j < ([helloEmit1, helloEmit2] : List Emit).length), i ≤ j →
        intField (([helloEmit1, helloEmit2] : List Emit).get ⟨i, hi⟩).event startLineKey ≤
          intField (([helloEmit1, helloEmit2] : List Emit).get ⟨j, hj⟩).event startLineKey) :=
  @c4_amended [strL "hello\nworld\n"] [helloEmit1, helloEmit2] (sentinelDict 2) rfl

/-- C10: when `close` runs on an empty buffer, the sink receives only the
sentinel, whatever pending correlated record is held: `_emit_event` is never
reached, so no event carrying that record's fields is emitted and the state
(including the pending record) is left untouched. -/
theorem c10_close_empty {st : FState} (h : st.buffer = []) :
    close st = Except.ok (st, [], sentinelDict st.counter) := by
  unfold close
  rw [h]
  simp

/-- A closed state holding a pending correlated record. -/
def pendingSt : FState :=
  { counter := 3, startLine := 5, buffer := [], lastChunk := strL "x",
    current := some [(uuidKey, JVal.str (strL "abc"))] }

/-- Witness for C10 at a concrete state with a pending correlated record. -/
theorem c10_close_empty_witness :
    close pendingSt = Except.ok (pendingSt, [], sentinelDict 3) :=
  c10_close_empty rfl

/-- C5 failing input: a complete marker whose payload base64-decodes to the
valid JSON value `1` (not an object).  `json.loads` succeeds, so the
`except ValueError` clause is not taken, and `next_event_data.get('uuid',
None)` then raises `AttributeError` out of `write`. -/
theorem c5_nondict_payload_raises :
    write initState (strL "\x1b[KMQ==\x1b[1D\x1b[K") =
      Except.error PyErr.attributeError := rfl

/-- A complete marker block in one chunk. -/
def c1Marker : Str := strL "\x1b[KA\x1b[1D\x1b[K"

/-- The same bytes split one character per `write` call, so that each
occurrence of the control token `\x1b[K` straddles three chunks. -/
def c1Chunks : List Str :=
  [strL "\x1b", strL "[", strL "K", strL "A", strL "\x1b", strL "[",
   strL "1", strL "D", strL "\x1b", strL "[", strL "K"]

/-- The verbose event the chunked feed flushes at close: the raw marker text
(minus the trailing two characters) leaks into stdout. -/
def c1RawEv : PyDict :=
  [(eventKey, JVal.str verboseStr), (counterKey, JVal.num 1),
   (stdoutKey, JVal.str (strL "\x1b[KA\x1b[1D\x1b")), (startLineKey, JVal.num 0),
   (endLineKey, JVal.num 0)]

/-- C1 failing input: feeding the marker whole consumes it (no verbose event,
sentinel final counter 0), while feeding the same bytes one character at a
time never satisfies the `'\x1b[K' in (last_chunk + data)` pre-check — the
token is split across three consecutive chunks, but the window only spans
two — so the marker is never detected and its raw text is emitted as a
verbose event at close.  The two runs' event sequences differ even ignoring
counters and line numbers. -/
theorem c1_chunking_divergence :
    runEvents [c1Marker] = Except.ok [sentinelDict 0] ∧
      runEvents c1Chunks = Except.ok [c1RawEv, sentinelDict 1] :=
  ⟨rfl, rfl⟩

/-- A marker whose payload decodes to the record `{"uuid": "a"}`. -/
def uuidMarker : Str := strL "\x1b[KeyJ1dWlkIjoiYSJ9\x1b[1D\x1b[K"

/-- C8 counterexample: after a marker carrying a truthy `uuid` is decoded and
the stream is closed with an empty buffer, the pending correlated record is
still held — `close` clears it only via the `_emit_event` flush, which does
not run on an empty buffer. -/
theorem c8_counterexample :
    (runFinalState [uuidMarker]).map (fun st => st.current) =
        Except.ok (some [(uuidKey, JVal.str (strL "a"))]) ∧
      (some [(uuidKey, JVal.str (strL "a"))] : Option PyDict) ≠ none :=
  ⟨rfl, by simp⟩

/-- C8 amended: after every `_emit_event` step the pending record is exactly
determined by that step's decoded record — set to it when it carries a truthy
`uuid`, cleared otherwise; `close` on a nonempty buffer clears the pending
record (its flush processes the empty record), but `close` on an empty buffer
leaves the whole state, pending record included, untouched (the record is
silently discarded, never emitted). -/
theorem c8_amended :
    (∀ (st : FState) (b : Str) (next : Option JVal) (st' : FState) (tr : List Emit),
        emitEvent st b next = Except.ok (st', tr) →
        ∃ fs, normRecord next = JVal.obj fs ∧
          st'.current = if uuidTruthy fs then some fs else none) ∧
    (∀ (st st' : FState) (tr : List Emit) (snt : PyDict),
        close st = Except.ok (st', tr, snt) → ¬ st.buffer.isEmpty → st'.current = none) ∧
    (∀ (st st' : FState) (tr : List Emit) (snt : PyDict),
        close st = Except.ok (st', tr, snt) → st.buffer.isEmpty → st' = st) := by
  refine ⟨?_, ?_, ?_⟩
  · intro st b next st' tr h
    obtain ⟨fs, hnd, h1, _⟩ := emitEvent_ok h
    exact ⟨fs, hnd, by rw [h1]⟩
  · intro st st' tr snt h hb
    unfold close at h
    rw [if_pos hb] at h
    rcases he : emitEvent st st.buffer none with err | ⟨st1, evs⟩ <;> rw [he] at h <;>
      dsimp only at h
    · exact absurd h (by simp)
    · obtain ⟨h1, h2⟩ := Prod.mk.inj (Except.ok.inj h)
      obtain ⟨fs, hnd, hc, _⟩ := emitEvent_ok he
      have hfs : [] = fs := by simpa [normRecord] using hnd
      rw [← h1, hc, ← hfs]
      simp [uuidTruthy, dictGet]
  · intro st st' tr snt h hb
    unfold close at h
    rw [if_neg (not_not_intro hb)] at h
    exact ((Prod.mk.inj (Except.ok.inj h)).1).symm

/-- Witness for the amended C8: processing the decoded record
`{"uuid": "a"}` from a fresh state sets the pending record to it. -/
theorem c8_amended_witness :
    ∃ fs, normRecord (some (JVal.obj [(uuidKey, JVal.str (strL "a"))])) = JVal.obj fs ∧
      (FState.mk 0 0 [] [] (some [(uuidKey, JVal.str (strL "a"))])).current =
        if uuidTruthy fs then some fs else none :=
  c8_amended.1 initState [] (some (JVal.obj [(uuidKey, JVal.str (strL "a"))]))
    (FState.mk 0 0 [] [] (some [(uuidKey, JVal.str (strL "a"))])) [] rfl

theorem takeWhile_append_not (p : Char → Bool) (l1 : Str) (x : Char) (l2 : Str)
    (h1 : ∀ c ∈ l1, p c = true) (hx : p x = false) :
    (l1 ++ x :: l2).takeWhile p = l1 ∧ (l1 ++ x :: l2).dropWhile p = x :: l2 := by
  induction l1 with
  | nil => simp [List.takeWhile_cons, List.dropWhile_cons, hx]
  | cons a l ih =>
    have ha : p a = true := h1 a (by simp)
    obtain ⟨ht, hd⟩ := ih (fun c hc => h1 c (by simp [hc]))
    simp [List.takeWhile_cons, List.dropWhile_cons, ha, ht, hd]

/-- One `PAYLOAD MOVE` repetition of the marker wire grammar: a nonempty
payload run, then `ESC [ digits+ D`. -/
def IsItem (s : Str) : Prop :=
  ∃ p d, p ≠ [] ∧ (∀ c ∈ p, isPayloadChar c = true) ∧ d ≠ [] ∧
    (∀ c ∈ d, Char.isDigit c = true) ∧ s = p ++ '\x1b' :: '[' :: (d ++ ['D'])

/-- The `(PAYLOAD MOVE)+` body of the marker wire grammar. -/
inductive IsBody : Str → Prop where
  | single : ∀ s, IsItem s → IsBody s
  | append : ∀ s t, IsItem s → IsBody t → IsBody (s ++ t)

theorem IsItem.length_pos {s : Str} (h : IsItem s) : 1 ≤ s.length := by
  obtain ⟨p, d, hp, _, _, _, rfl⟩ := h
  cases p with
  | nil => exact absurd rfl hp
  | cons a l => simp

theorem IsItem.head_payload {s : Str} (h : IsItem s) :
    ∃ c tl, s = c :: tl ∧ isPayloadChar c = true := by
  obtain ⟨p, d, hp, hpc, _, _, rfl⟩ := h
  cases p with
  | nil => exact absurd rfl hp
  | cons a l => exact ⟨a, _, rfl, hpc a (by simp)⟩

theorem matchItem_of_item {s : Str} (h : IsItem s) (rest : Str) :
    matchItem (s ++ rest) = some rest := by
  obtain ⟨p, d, hp, hpc, hd, hdc, rfl⟩ := h
  have harr : (p ++ '\x1b' :: '[' :: (d ++ ['D'])) ++ rest =
      p ++ '\x1b' :: ('[' :: (d ++ 'D' :: rest)) := by simp
  obtain ⟨ht, hdw⟩ := takeWhile_append_not isPayloadChar p '\x1b'
    ('[' :: (d ++ 'D' :: rest)) hpc (by decide)
  obtain ⟨ht2, hdw2⟩ := takeWhile_append_not Char.isDigit d 'D' rest hdc (by decide)
  rw [harr]
  unfold matchItem
  rw [ht, hdw]
  simp only [List.isEmpty_eq_true, hp, if_false]
  rw [ht2, hdw2]
  simp [hd]

theorem matchItem_sound {cs r : Str} (h : matchItem cs = some r) :
    ∃ s, IsItem s ∧ cs = s ++ r := by
  unfold matchItem at h
  split at h
  · exact absurd h (by simp)
  · rename_i hne1
    split at h
    · rename_i rr heq1
      split at h
      · exact absurd h (by simp)
      · rename_i hne2
        split at h
        · rename_i r2 heq2
          obtain hrr := Option.some.inj h
          subst hrr
          refine ⟨cs.takeWhile isPayloadChar ++ '\x1b' :: '[' ::
            (rr.takeWhile Char.isDigit ++ ['D']), ?_, ?_⟩
          · refine ⟨cs.takeWhile isPayloadChar, rr.takeWhile Char.isDigit,
              ?_, ?_, ?_, ?_, rfl⟩
            · simpa using hne1
            · exact fun c hc => List.mem_takeWhile_imp hc
            · simpa using hne2
            · exact fun c hc => List.mem_takeWhile_imp hc
          · have hcs : cs.takeWhile isPayloadChar ++ cs.dropWhile isPayloadChar = cs :=
              List.takeWhile_append_dropWhile ..
            have hrr2 : rr.takeWhile Char.isDigit ++ rr.dropWhile Char.isDigit = rr :=
              List.takeWhile_append_dropWhile ..
            rw [heq1] at hcs
            rw [heq2] at hrr2
            conv_lhs => rw [← hcs, ← hrr2]
            simp
        · exact absurd h (by simp)
    · exact absurd h (by simp)

theorem matchRest_cons (f : Nat) (c : Char) (tl : Str) :
    matchRest (f + 1) (c :: tl) =
      (if isPayloadChar c then
        (match matchItem (c :: tl) with
         | some r => matchRest f r
         | none => none)
      else
        (match c :: tl with
         | '\x1b' :: '[' :: 'K' :: r => some r
         | _ => none)) := rfl

theorem tryMatchHere_cons (after : Str) :
    tryMatchHere ('\x1b' :: '[' :: 'K' :: after) =
      (match matchItem after with
       | some r1 =>
         (match matchRest after.length r1 with
          | some rest =>
            some ((after.take (after.length - rest.length - 3)).length + 6,
              after.take (after.length - rest.length - 3))
          | none => none)
       | none => none) := rfl

theorem matchRest_close (f : Nat) (r : Str) :
    matchRest (f + 1) (openTok ++ r) = some r := rfl

theorem body_first {b : Str} (hb : IsBody b) :
    ∃ s t, IsItem s ∧ b = s ++ t ∧ (t = [] ∨ IsBody t) := by
  cases hb with
  | single s hs => exact ⟨b, [], hs, by simp, Or.inl rfl⟩
  | append s t hs ht => exact ⟨s, t, hs, rfl, Or.inr ht⟩

theorem matchRest_of_body {b : Str} (hb : IsBody b) : ∀ (f : Nat) (post : Str),
    b.length + 1 ≤ f → matchRest f (b ++ openTok ++ post) = some post := by
  induction hb with
  | single s hs =>
    intro f post hf
    have hl := hs.length_pos
    cases f with
    | zero => omega
    | succ f' =>
      obtain ⟨c, tl, hstl, hcp⟩ := hs.head_payload
      have harr : s ++ openTok ++ post = c :: (tl ++ (openTok ++ post)) := by
        rw [hstl]; simp
      rw [harr, matchRest_cons, if_pos hcp]
      have hmi : matchItem (c :: (tl ++ (openTok ++ post))) = some (openTok ++ post) := by
        have : c :: (tl ++ (openTok ++ post)) = s ++ (openTok ++ post) := by
          rw [hstl]; simp
        rw [this]
        exact matchItem_of_item hs _
      rw [hmi]
      dsimp only
      cases f' with
      | zero => omega
      | succ f2 => exact matchRest_close f2 post
  | append s t hs hbt ih =>
    intro f post hf
    have hls := hs.length_pos
    have hlen : (s ++ t).length = s.length + t.length := by simp
    cases f with
    | zero => omega
    | succ f' =>
      obtain ⟨c, tl, hstl, hcp⟩ := hs.head_payload
      have harr : (s ++ t) ++ openTok ++ post = c :: (tl ++ (t ++ openTok ++ post)) := by
        rw [hstl]; simp
      rw [harr, matchRest_cons, if_pos hcp]
      have hmi : matchItem (c :: (tl ++ (t ++ openTok ++ post))) =
          some (t ++ openTok ++ post) := by
        have : c :: (tl ++ (t ++ openTok ++ post)) = s ++ (t ++ openTok ++ post) := by
          rw [hstl]; simp
        rw [this]
        exact matchItem_of_item hs _
      rw [hmi]
      dsimp only
      exact ih f' post (by omega)

theorem matchRest_sound : ∀ (f : Nat) (cs r : Str), matchRest f cs = some r →
    ∃ b, cs = b ++ openTok ++ r ∧ (b = [] ∨ IsBody b) := by
  intro f
  induction f with
  | zero => intro cs r h; simp [matchRest] at h
  | succ f ih =>
    intro cs r h
    cases cs with
    | nil => simp [matchRest] at h
    | cons c tl =>
      rw [matchRest_cons] at h
      split at h
      · split at h
        · rename_i xsc r1 heqI
          obtain ⟨s, hs, hdec⟩ := matchItem_sound heqI
          obtain ⟨b', hdec', hb'⟩ := ih r1 r h
          refine ⟨s ++ b', ?_, Or.inr ?_⟩
          · rw [hdec, hdec']; simp
          · cases hb' with
            | inl he => subst he; simpa using IsBody.single s hs
            | inr hbb => exact IsBody.append s b' hs hbb
        · exact absurd h (by simp)
      · split at h
        · rename_i r' heqC
          obtain hr := Option.some.inj h
          subst hr
          exact ⟨[], by simp [openTok, escChar, heqC], Or.inl rfl⟩
        · exact absurd h (by simp)

theorem tryMatchHere_of_body {b : Str} (hb : IsBody b) (post : Str) :
    tryMatchHere (openTok ++ b ++ openTok ++ post) = some (b.length + 6, b) := by
  have hbpos : 1 ≤ b.length := by
    obtain ⟨s, t, hs, hbst, _⟩ := body_first hb
    have := hs.length_pos
    rw [hbst]
    simp
    omega
  have hop : openTok ++ b ++ openTok ++ post =
      '\x1b' :: '[' :: 'K' :: (b ++ (openTok ++ post)) := by simp [openTok, escChar]
  rw [hop, tryMatchHere_cons]
  obtain ⟨s, t, hs, hbst, ht⟩ := body_first hb
  have hmi : matchItem (b ++ (openTok ++ post)) = some (t ++ (openTok ++ post)) := by
    rw [hbst, List.append_assoc]
    exact matchItem_of_item hs _
  rw [hmi]
  dsimp only
  have hlen : (b ++ (openTok ++ post)).length = b.length + 3 + post.length := by
    simp [openTok]
    omega
  have hmr : matchRest (b ++ (openTok ++ post)).length (t ++ (openTok ++ post)) =
      some post := by
    cases ht with
    | inl he =>
      subst he
      rw [hlen]
      have h3 : b.length + 3 + post.length = (b.length + 2 + post.length) + 1 := by omega
      rw [h3]
      simpa using matchRest_close (b.length + 2 + post.length) post
    | inr hbt =>
      have harr : t ++ (openTok ++ post) = t ++ openTok ++ post := by simp
      rw [harr]
      apply matchRest_of_body hbt
      have : t.length ≤ b.length - 1 := by
        have := hs.length_pos
        rw [hbst]
        simp
        omega
      omega
  rw [hmr]
  dsimp only
  have htake : (b ++ (openTok ++ post)).take ((b ++ (openTok ++ post)).length
      - post.length - 3) = b := by
    have h1 : (b ++ (openTok ++ post)).length - post.length - 3 = b.length := by
      rw [hlen]; omega
    rw [h1]
    exact List.take_left b (openTok ++ post)
  rw [htake]

theorem tryMatchHere_sound {cs : Str} {n : Nat} {g : Str}
    (h : tryMatchHere cs = some (n, g)) :
    IsBody g ∧ cs = openTok ++ g ++ openTok ++ cs.drop n ∧ n = g.length + 6 := by
  unfold tryMatchHere at h
  split at h
  · rename_i after
    split at h
    · rename_i r1 heqI
      split at h
      · rename_i rest heqR
        dsimp only at h
        obtain ⟨h1, h2⟩ := Prod.mk.inj (Option.some.inj h)
        obtain ⟨s, hs, hdecI⟩ := matchItem_sound heqI
        obtain ⟨b', hdecR, hb'⟩ := matchRest_sound _ _ _ heqR
        have hB : after = (s ++ b') ++ (openTok ++ rest) := by
          rw [hdecI, hdecR]; simp
        have hBody : IsBody (s ++ b') := by
          cases hb' with
          | inl he => subst he; simpa using IsBody.single s hs
          | inr hbb => exact IsBody.append s b' hs hbb
        have hlen : after.length = (s ++ b').length + 3 + rest.length := by
          rw [hB]; simp [openTok]; omega
        have hidx : after.length - rest.length - 3 = (s ++ b').length := by omega
        have htake : after.take (after.length - rest.length - 3) = s ++ b' := by
          rw [hidx, hB]
          exact List.take_left (s ++ b') (openTok ++ rest)
        rw [htake] at h1 h2
        subst h1; subst h2
        refine ⟨hBody, ?_, rfl⟩
        have hdrop : ('\x1b' :: '[' :: 'K' :: after).drop ((s ++ b').length + 6) = rest := by
          have h6 : (s ++ b').length + 6 = ((s ++ b').length + 3) + 3 := by omega
          rw [h6]
          show after.drop ((s ++ b').length + 3) = rest
          rw [hB, ← List.append_assoc]
          refine List.drop_left' ?_
          simp [openTok]
          omega
        rw [hdrop, hB]
        simp [openTok, escChar]
      · exact absurd h (by simp)
    · exact absurd h (by simp)
  · exact absurd h (by simp)

theorem reSearch_sound : ∀ (v : Str) (s e : Nat) (g : Str),
    reSearch v = some (s, e, g) →
    IsBody g ∧ v = v.take s ++ openTok ++ g ++ openTok ++ v.drop e ∧
      e = s + g.length + 6 := by
  intro v
  induction v with
  | nil => intro s e g h; simp [reSearch] at h
  | cons c tl ih =>
    intro s e g h
    unfold reSearch at h
    split at h
    · rename_i xsc n g0 heq
      have h' := Option.some.inj h
      obtain ⟨hs1, hrest⟩ := Prod.mk.inj h'
      obtain ⟨hs2, hs3⟩ := Prod.mk.inj hrest
      subst hs1; subst hs2; subst hs3
      obtain ⟨hg, hdec, hn⟩ := tryMatchHere_sound heq
      exact ⟨hg, by simpa using hdec, by omega⟩
    · rename_i xsc hnone
      split at h
      · rename_i xsc2 s' e' g' heq2
        have h' := Option.some.inj h
        obtain ⟨hs1, hrest⟩ := Prod.mk.inj h'
        obtain ⟨hs2, hs3⟩ := Prod.mk.inj hrest
        subst hs1; subst hs2; subst hs3
        obtain ⟨hg, hdec, he⟩ := ih s' e' g' heq2
        refine ⟨hg, ?_, by omega⟩
        calc c :: tl = c :: (tl.take s' ++ openTok ++ g' ++ openTok ++ tl.drop e') := by
              rw [← hdec]
          _ = (c :: tl).take (s' + 1) ++ openTok ++ g' ++ openTok ++
                (c :: tl).drop (e' + 1) := by simp
      · exact absurd h (by simp)

theorem reSearch_complete : ∀ (pre b post : Str), IsBody b →
    ∃ s e g, reSearch (pre ++ openTok ++ b ++ openTok ++ post) = some (s, e, g) := by
  intro pre
  induction pre with
  | nil =>
    intro b post hb
    have hv : ([] : Str) ++ openTok ++ b ++ openTok ++ post =
        '\x1b' :: ('[' :: 'K' :: (b ++ (openTok ++ post))) := by simp [openTok, escChar]
    have hm := tryMatchHere_of_body hb post
    have hm2 : tryMatchHere ('\x1b' :: ('[' :: 'K' :: (b ++ (openTok ++ post)))) =
        some (b.length + 6, b) := by
      rw [← hm]
      congr 1
      simpa using hv.symm
    refine ⟨0, b.length + 6, b, ?_⟩
    rw [hv]
    unfold reSearch
    rw [hm2]
  | cons c pre' ih =>
    intro b post hb
    have hv : (c :: pre') ++ openTok ++ b ++ openTok ++ post =
        c :: (pre' ++ openTok ++ b ++ openTok ++ post) := by simp
    rw [hv]
    rcases h1 : tryMatchHere (c :: (pre' ++ openTok ++ b ++ openTok ++ post)) with _ | ⟨n, g⟩
    · obtain ⟨s, e, g, heq⟩ := ih b post hb
      refine ⟨s + 1, e + 1, g, ?_⟩
      unfold reSearch
      rw [h1, heq]
    · refine ⟨0, n, g, ?_⟩
      unfold reSearch
      rw [h1]

/-- C6: every complete inline block `OPEN (PAYLOAD MOVE)+ OPEN` contained in
the buffer makes the Marker Scanner (`EVENT_DATA_RE.search`) report a match,
and the reported match is itself such a block with its `(PAYLOAD MOVE)+`
portion as the captured payload group: the buffer decomposes around the
returned span into the text before the match, the opening token, the captured
group, the closing token, and the remainder. -/
theorem c6_marker_scanner {v pre body post : Str}
    (hv : v = pre ++ openTok ++ body ++ openTok ++ post) (hb : IsBody body) :
    ∃ s e g, reSearch v = some (s, e, g) ∧ IsBody g ∧
      v = v.take s ++ openTok ++ g ++ openTok ++ v.drop e ∧ e = s + g.length + 6 := by
  subst hv
  obtain ⟨s, e, g, hsr⟩ := reSearch_complete pre body post hb
  obtain ⟨hg, hdec, he⟩ := reSearch_sound _ s e g hsr
  exact ⟨s, e, g, hsr, hg, hdec, he⟩

/-- Witness for C6: the buffer `"x" ++ OPEN ++ "A" ++ ESC[1D ++ OPEN ++ "y"`
contains a complete block with body `"A" ESC[1D`. -/
theorem c6_marker_scanner_witness :
    ∃ s e g, reSearch (strL "x\x1b[KA\x1b[1D\x1b[Ky") = some (s, e, g) ∧ IsBody g ∧
      strL "x\x1b[KA\x1b[1D\x1b[Ky" =
        (strL "x\x1b[KA\x1b[1D\x1b[Ky").take s ++ openTok ++ g ++ openTok ++
          (strL "x\x1b[KA\x1b[1D\x1b[Ky").drop e ∧ e = s + g.length + 6 :=
  @c6_marker_scanner (strL "x\x1b[KA\x1b[1D\x1b[Ky") (strL "x")
    (['A'] ++ '\x1b' :: '[' :: (['1'] ++ ['D'])) (strL "y") (by decide)
    (IsBody.single _ ⟨['A'], ['1'], by decide, by decide, by decide, by decide, rfl⟩)

/-- C7: when the captured payload of a matched marker fails either decode
stage (cursor-move stripping + base64 decoding, or JSON decoding), the Block
Decoder yields the empty record instead of propagating an error; the scan
step cannot fail on such a marker: the buffered text before the match is
still emitted through `_emit_event` (with the empty record as the new decoded
record), and the loop continues scanning on the remainder after the match. -/
theorem c7_decode_failure (f : Nat) (st : FState) (s e : Nat) (g : Str)
    (hs : reSearch st.buffer = some (s, e, g)) (hd : decodePayload g = none) :
    decodeEventData g = JVal.obj [] ∧
    (∃ st1 evs, emitEvent st (st.buffer.take s) (some (JVal.obj [])) =
        Except.ok (st1, evs) ∧
      scanLoopF (f + 1) st =
        (match scanLoopF f { st1 with buffer := st.buffer.drop e, lastChunk := st.buffer.drop e } with
         | Except.error err => Except.error err
         | Except.ok (st2, evs2) => Except.ok (st2, evs ++ evs2))) := by
  have hde : decodeEventData g = JVal.obj [] := by
    unfold decodeEventData
    rw [hd]
  refine ⟨hde, { st with counter := (emitOut st (st.buffer.take s)).2.1, startLine := (emitOut st (st.buffer.take s)).2.2.1, current := none },
    (emitOut st (st.buffer.take s)).2.2.2, rfl, ?_⟩
  simp only [scanLoopF]
  rw [hs]
  dsimp only
  rw [hde]
  rfl

/-- Witness for C7: a marker whose payload `'A'` fails base64 decoding
(`binascii.Error`), processed from a state whose buffer holds text before the
marker and text after it. -/
theorem c7_decode_failure_witness :
    decodeEventData ('A' :: strL "\x1b[1D") = JVal.obj [] ∧
    (∃ st1 evs,
      emitEvent (FState.mk 0 0 (strL "hi\n\x1b[KA\x1b[1D\x1b[Krest") (strL "") none)
          ((strL "hi\n\x1b[KA\x1b[1D\x1b[Krest").take 3) (some (JVal.obj [])) =
        Except.ok (st1, evs) ∧
      scanLoopF 1 (FState.mk 0 0 (strL "hi\n\x1b[KA\x1b[1D\x1b[Krest") (strL "") none) =
        (match scanLoopF 0 { st1 with buffer := (strL "hi\n\x1b[KA\x1b[1D\x1b[Krest").drop 14, lastChunk := (strL "hi\n\x1b[KA\x1b[1D\x1b[Krest").drop 14 } with
         | Except.error err => Except.error err
         | Except.ok (st2, evs2) => Except.ok (st2, evs ++ evs2))) :=
  c7_decode_failure 0 (FState.mk 0 0 (strL "hi\n\x1b[KA\x1b[1D\x1b[Krest") (strL "") none)
    3 14 ('A' :: strL "\x1b[1D") rfl rfl

/-- A run of characters none of which is a line break. -/
def NoBreak (l : Str) : Prop := ∀ c ∈ l, isLineBreak c = false

theorem splitlinesAux_cons_nb (c : Char) (rest : Str) (acc : Str)
    (hcb : isLineBreak c = false) :
    splitlinesAux (c :: rest) acc = splitlinesAux rest (c :: acc) := by
  have hc : c ≠ '\r' := by
    intro h
    rw [h] at hcb
    simp [isLineBreak] at hcb
  cases rest with
  | nil =>
    simp only [splitlinesAux]
    rw [if_neg hc, if_neg (by rw [hcb]; exact Bool.false_ne_true)]
  | cons c2 rest2 =>
    simp only [splitlinesAux]
    rw [if_neg hc, if_neg (by rw [hcb]; exact Bool.false_ne_true)]

theorem splitlinesAux_nb_run : ∀ (nb : Str) (rest acc : Str), NoBreak nb →
    splitlinesAux (nb ++ rest) acc = splitlinesAux rest (nb.reverse ++ acc) := by
  intro nb
  induction nb with
  | nil => intro rest acc _; simp
  | cons c nb' ih =>
    intro rest acc hnb
    have hc : isLineBreak c = false := hnb c (by simp)
    have hrest : NoBreak nb' := fun d hd => hnb d (by simp [hd])
    rw [List.cons_append, splitlinesAux_cons_nb c _ _ hc, ih rest (c :: acc) hrest]
    simp

theorem splitlinesAux_single_break (br : Char) (acc : Str)
    (hbr : isLineBreak br = true) :
    splitlinesAux [br] acc = [acc.reverse ++ [br]] := by
  by_cases hr : br = '\r'
  · subst hr
    simp [splitlinesAux]
  · simp only [splitlinesAux]
    rw [if_neg hr, if_pos hbr]
    simp [splitlinesAux]


theorem splitlinesAux_crlf (acc : Str) :
    splitlinesAux ['\r', '\n'] acc = [acc.reverse ++ ['\r', '\n']] := rfl

/-- The shape of one fragment produced by `splitlines(True)`: a run of
non-break characters followed by nothing (trailing incomplete fragment), one
break character, or the pair `\r\n`. -/
def IsFrag (l : Str) : Prop :=
  ∃ nb t, NoBreak nb ∧ l = nb ++ t ∧
    ((t = [] ∧ nb ≠ []) ∨ (∃ br, isLineBreak br = true ∧ t = [br]) ∨ t = ['\r', '\n'])

theorem IsFrag.ne_nil {l : Str} (h : IsFrag l) : l ≠ [] := by
  obtain ⟨nb, t, _, rfl, ht⟩ := h
  rcases ht with ⟨rfl, hnb⟩ | ⟨br, _, rfl⟩ | rfl
  · simpa using hnb
  · simp
  · simp

theorem frag_splitlines_self {l : Str} (h : IsFrag l) : pySplitlines l = [l] := by
  obtain ⟨nb, t, hnb, rfl, ht⟩ := h
  unfold pySplitlines
  rw [splitlinesAux_nb_run nb t [] hnb]
  rcases ht with ⟨rfl, hne⟩ | ⟨br, hbr, rfl⟩ | rfl
  · simp [splitlinesAux, hne]
  · rw [splitlinesAux_single_break br _ hbr]
    simp
  · rw [splitlinesAux_crlf]
    simp

theorem NoBreak.reverse {acc : Str} (h : NoBreak acc) : NoBreak acc.reverse :=
  fun c hc => h c (by simpa using hc)

theorem mem_splitlinesAux_isFrag : ∀ (n : Nat) (x acc : Str), x.length ≤ n →
    NoBreak acc → ∀ l ∈ splitlinesAux x acc, IsFrag l := by
  intro n
  induction n with
  | zero =>
    intro x acc hle hacc l hl
    have hx : x = [] := by
      cases x with
      | nil => rfl
      | cons c tl => simp at hle
    subst hx
    simp only [splitlinesAux] at hl
    split at hl
    · simp at hl
    · rename_i hne
      have hl2 : l = acc.reverse := by simpa using hl
      subst hl2
      exact ⟨acc.reverse, [], hacc.reverse, by simp,
        Or.inl ⟨rfl, by simpa [List.isEmpty_iff] using hne⟩⟩
  | succ n ih =>
    intro x acc hle hacc l hl
    cases x with
    | nil =>
      simp only [splitlinesAux] at hl
      split at hl
      · simp at hl
      · rename_i hne
        have hl2 : l = acc.reverse := by simpa using hl
        subst hl2
        exact ⟨acc.reverse, [], hacc.reverse, by simp,
          Or.inl ⟨rfl, by simpa [List.isEmpty_iff] using hne⟩⟩
    | cons c rest =>
      by_cases hr : c = '\r'
      · subst hr
        cases rest with
        | nil =>
          have hred : splitlinesAux ['\r'] acc =
              (acc.reverse ++ ['\r']) :: splitlinesAux [] [] := by
            simp [splitlinesAux]
          rw [hred] at hl
          rcases (by simpa using hl : l = acc.reverse ++ ['\r'] ∨
              l ∈ splitlinesAux [] []) with hl2 | hl2
          · subst hl2
            exact ⟨acc.reverse, ['\r'], hacc.reverse, rfl,
              Or.inr (Or.inl ⟨'\r', by simp [isLineBreak], rfl⟩)⟩
          · simp [splitlinesAux] at hl2
        | cons c2 rest2 =>
          by_cases hn : c2 = '\n'
          · subst hn
            have hred : splitlinesAux ('\r' :: '\n' :: rest2) acc =
                (acc.reverse ++ ['\r', '\n']) :: splitlinesAux rest2 [] := by
              simp [splitlinesAux]
            rw [hred] at hl
            rcases (by simpa using hl : l = acc.reverse ++ ['\r', '\n'] ∨
                l ∈ splitlinesAux rest2 []) with hl2 | hl2
            · subst hl2
              exact ⟨acc.reverse, ['\r', '\n'], hacc.reverse, rfl, Or.inr (Or.inr rfl)⟩
            · exact ih rest2 [] (by simp at hle; omega) (by intro c hc; simp at hc) l hl2
          · have hred : splitlinesAux ('\r' :: c2 :: rest2) acc =
                (acc.reverse ++ ['\r']) :: splitlinesAux (c2 :: rest2) [] := by
              simp [splitlinesAux, hn]
            rw [hred] at hl
            rcases (by simpa using hl : l = acc.reverse ++ ['\r'] ∨
                l ∈ splitlinesAux (c2 :: rest2) []) with hl2 | hl2
            · subst hl2
              exact ⟨acc.reverse, ['\r'], hacc.reverse, rfl,
                Or.inr (Or.inl ⟨'\r', by simp [isLineBreak], rfl⟩)⟩
            · exact ih (c2 :: rest2) [] (by simp at hle ⊢; omega)
                (by intro c hc; simp at hc) l hl2
      · by_cases hbk : isLineBreak c
        · have hred : splitlinesAux (c :: rest) acc =
              (acc.reverse ++ [c]) :: splitlinesAux rest [] := by
            cases rest with
            | nil => simp [splitlinesAux, hr, hbk]
            | cons c2 rest2 => simp [splitlinesAux, hr, hbk]
          rw [hred] at hl
          rcases (by simpa using hl : l = acc.reverse ++ [c] ∨
              l ∈ splitlinesAux rest []) with hl2 | hl2
          · subst hl2
            exact ⟨acc.reverse, [c], hacc.reverse, rfl, Or.inr (Or.inl ⟨c, hbk, rfl⟩)⟩
          · exact ih rest [] (by simp at hle; omega) (by intro c hc; simp at hc) l hl2
        · have hbk' : isLineBreak c = false := by simpa using hbk
          rw [splitlinesAux_cons_nb c rest acc hbk'] at hl
          exact ih rest (c :: acc) (by simp at hle; omega)
            (by intro d hd
                rcases (by simpa using hd : d = c ∨ d ∈ acc) with rfl | hd2
                · exact hbk'
                · exact hacc d hd2) l hl

/-- Every fragment of `splitlines(True)` has the fragment shape. -/
theorem mem_splitlines_isFrag {x l : Str} (h : l ∈ pySplitlines x) : IsFrag l :=
  mem_splitlinesAux_isFrag x.length x [] le_rfl (by intro c hc; simp at hc) l h

theorem evDict_event (c l : Nat) (ch : Str) :
    dictGet (evDict [(eventKey, JVal.str verboseStr)] c l ch) eventKey =
      some (JVal.str verboseStr) := by
  simp only [evDict]
  rw [dictGet_dictSet_diff _ _ _ _ (by decide), dictGet_dictSet_diff _ _ _ _ (by decide),
    dictGet_dictSet_diff _ _ _ _ (by decide), dictGet_dictSet_diff _ _ _ _ (by decide)]
  simp [dictGet]

/-- A single splitlines fragment passed to `_emit_event` with no pending
record yields exactly one verbose event carrying that fragment. -/
theorem emitEvent_verbose_line {st : FState} {l : Str} (hcur : st.current = none)
    (hfrag : IsFrag l) :
    emitEvent st l none = Except.ok
      ({ st with
          counter := st.counter + 1
          startLine := st.startLine + nlCount l
          current := none },
       [{ chunk := l,
          event := evDict [(eventKey, JVal.str verboseStr)] st.counter st.startLine l }]) := by
  have hne := hfrag.ne_nil
  have hsplit := frag_splitlines_self hfrag
  have hpair : emitPair st l = ([(eventKey, JVal.str verboseStr)], [l]) := by
    unfold emitPair
    rw [hcur]
    simp [currentTruthy, List.isEmpty_iff, hne, hsplit]
  have hout : emitOut st l =
      (evDict [(eventKey, JVal.str verboseStr)] st.counter st.startLine l,
        st.counter + 1, st.startLine + nlCount l,
        [{ chunk := l,
           event := evDict [(eventKey, JVal.str verboseStr)] st.counter st.startLine l }]) := by
    unfold emitOut
    rw [hpair]
    simp [emitChunks]
  unfold emitEvent
  rw [hout]
  rfl

/-- The per-line emission loop of the verbose filter on splitlines
fragments: it succeeds, emits one verbose event per fragment in order, keeps
no pending record and leaves the buffer alone. -/
theorem emitLines_frags : ∀ (ls : List Str) (st : FState), st.current = none →
    (∀ l ∈ ls, IsFrag l) →
    ∃ st2 evs, emitLines st ls = Except.ok (st2, evs) ∧ st2.current = none ∧
      st2.buffer = st.buffer ∧ evs.map Emit.chunk = ls ∧
      ∀ r ∈ evs, dictGet r.event eventKey = some (JVal.str verboseStr) := by
  intro ls
  induction ls with
  | nil => intro st hcur _; exact ⟨st, [], rfl, hcur, rfl, rfl, by simp⟩
  | cons l ls ih =>
    intro st hcur hfr
    have hl := hfr l (by simp)
    have hstep := emitEvent_verbose_line hcur hl
    obtain ⟨st2, evs, hrec, hcur2, hbuf2, hmap, hev⟩ := ih
      ({ st with
          counter := st.counter + 1
          startLine := st.startLine + nlCount l
          current := none }) rfl (fun d hd => hfr d (by simp [hd]))
    refine ⟨st2,
      { chunk := l,
        event := evDict [(eventKey, JVal.str verboseStr)] st.counter st.startLine l } :: evs,
      ?_, hcur2, by simpa using hbuf2, by simp [hmap], ?_⟩
    · unfold emitLines
      rw [hstep]
      dsimp only
      rw [hrec]
      rfl
    · intro r hr
      rcases (by simpa using hr : r =
          ({ chunk := l,
             event := evDict [(eventKey, JVal.str verboseStr)] st.counter st.startLine l } : Emit)
          ∨ r ∈ evs) with hr1 | hr2
      · subst hr1
        exact evDict_event st.counter st.startLine l
      · exact hev r hr2

/-- C9 amended: on `OutputVerboseFilter.write(chunk)` (whose state never
holds a pending record), if the chunk contains a `'\n'` character the full
buffer is split by `splitlines(True)` into terminator-attached fragments, the
trailing fragment is withheld as the new buffer exactly when it contains no
`'\n'`, and one verbose event is emitted per remaining fragment in order; if
the chunk contains no `'\n'` — even when it contains one of the other line
terminators `splitlines` recognises, such as `'\r'` — no event is emitted and
the chunk is only appended to the buffer. -/
theorem c9_amended (st : FState) (data : Str) (hcur : st.current = none) :
    ('\n' ∉ data → vWrite st data = Except.ok ({ st with buffer := st.buffer ++ data }, [])) ∧
    ('\n' ∈ data →
      ∃ st2 evs, vWrite st data = Except.ok (st2, evs) ∧
        st2.buffer = (if '\n' ∉ (pySplitlines (st.buffer ++ data)).getLastD [] then
          (pySplitlines (st.buffer ++ data)).getLastD [] else []) ∧
        evs.map Emit.chunk = (if '\n' ∉ (pySplitlines (st.buffer ++ data)).getLastD [] then
          (pySplitlines (st.buffer ++ data)).dropLast else pySplitlines (st.buffer ++ data)) ∧
        (∀ r ∈ evs, dictGet r.event eventKey = some (JVal.str verboseStr))) := by
  constructor
  · intro hn
    unfold vWrite
    rw [if_neg (fun hc => hn hc.2)]
  · intro hmem
    have hne : ¬ data.isEmpty := by
      simp only [List.isEmpty_iff]
      exact List.ne_nil_of_mem hmem
    have hfr : ∀ l ∈ pySplitlines (st.buffer ++ data), IsFrag l :=
      fun l hl => mem_splitlines_isFrag hl
    unfold vWrite
    rw [if_pos ⟨hne, hmem⟩]
    dsimp only
    by_cases hw : '\n' ∉ (pySplitlines (st.buffer ++ data)).getLastD []
    · obtain ⟨st2, evs, hrun, _, _, hmap, hev⟩ := emitLines_frags
        ((pySplitlines (st.buffer ++ data)).dropLast)
        ({ st with buffer := st.buffer ++ data }) hcur
        (fun l hl => hfr l (List.dropLast_subset _ hl))
      rw [if_pos hw, if_pos hw, hrun]
      exact ⟨_, evs, rfl, rfl, hmap, hev⟩
    · obtain ⟨st2, evs, hrun, _, _, hmap, hev⟩ := emitLines_frags
        (pySplitlines (st.buffer ++ data))
        ({ st with buffer := st.buffer ++ data }) hcur hfr
      rw [if_neg hw, if_neg hw, hrun]
      exact ⟨_, evs, rfl, rfl, hmap, hev⟩

/-- Witness for the amended C9 at `write("a\nb")` on a fresh verbose filter. -/
theorem c9_amended_witness :
    ('\n' ∉ strL "a\nb" → vWrite initState (strL "a\nb") =
      Except.ok ({ initState with buffer := initState.buffer ++ strL "a\nb" }, [])) ∧
    ('\n' ∈ strL "a\nb" →
      ∃ st2 evs, vWrite initState (strL "a\nb") = Except.ok (st2, evs) ∧
        st2.buffer = (if '\n' ∉ (pySplitlines (initState.buffer ++ strL "a\nb")).getLastD []
          then (pySplitlines (initState.buffer ++ strL "a\nb")).getLastD [] else []) ∧
        evs.map Emit.chunk =
          (if '\n' ∉ (pySplitlines (initState.buffer ++ strL "a\nb")).getLastD []
           then (pySplitlines (initState.buffer ++ strL "a\nb")).dropLast
           else pySplitlines (initState.buffer ++ strL "a\nb")) ∧
        (∀ r ∈ evs, dictGet r.event eventKey = some (JVal.str verboseStr))) :=
  c9_amended initState (strL "a\nb") rfl

/-- C9 counterexample: the chunk `"a\rb"` contains the line terminator `'\r'`
(`splitlines` splits the buffer into `["a\r", "b"]`, so `"a\r"` is a complete
line-terminated fragment), yet `OutputVerboseFilter.write` emits nothing and
withholds the whole chunk: the trigger tests specifically for `'\n'`. -/
theorem c9_counterexample :
    vWrite initState (strL "a\rb") =
        Except.ok (FState.mk 0 0 (strL "a\rb") [] none, []) ∧
      pySplitlines (strL "a\rb") = [strL "a\r", strL "b"] ∧
      isLineBreak '\r' = true :=
  ⟨rfl, by decide, by decide⟩

end AwxStream
